import Mathlib

/-!
# Verification of the `middle.js` dispatch engine

A shallow embedding of `src/lib/middle.js` (a connect-style middleware
dispatcher) and proofs of the specification's claims about it.

JavaScript strings are embedded as Lean `String`; the JS string primitives
used by the source (`substr`, `indexOf`, `toLowerCase`, indexing) are
modelled below over `String.data`.  JS runtime values threaded as the
pending error are embedded as `JsVal` with JS truthiness.
-/

set_option autoImplicit false

namespace Middle

/-- JS `s.substr(start)` (non-negative `start`). -/
def substrFrom (s : String) (start : Nat) : String :=
  ⟨s.data.drop start⟩

/-- JS `s.substr(0, len)` for a non-negative `len`, i.e. `take`. -/
def strTake (s : String) (len : Nat) : String :=
  ⟨s.data.take len⟩

/-- JS `s.toLowerCase()` (ASCII model, as `Char.toLower`). -/
def jsToLower (s : String) : String :=
  ⟨s.data.map Char.toLower⟩

/-- First index at which `pat` occurs in a list, JS `indexOf` style
(`none` embeds JS's `-1`). -/
def idxOfList (pat : List Char) : List Char → Option Nat
  | [] => if pat.isPrefixOf ([] : List Char) then some 0 else none
  | c :: rest =>
    if pat.isPrefixOf (c :: rest) then some 0
    else (idxOfList pat rest).map (· + 1)

/-- JS `s.indexOf(pat)` (`none` embeds `-1`). -/
def jsIndexOf (s pat : String) : Option Nat :=
  idxOfList pat.data s.data

/-- JS `s.indexOf(c, start)` (`none` embeds `-1`). -/
def jsIndexOfFrom (s : String) (c : Char) (start : Nat) : Option Nat :=
  (idxOfList [c] (s.data.drop start)).map (· + start)

/-- A JS runtime value, as threaded through the chain as the pending error.
(`NaN` is not modelled; `obj` stands for any object, e.g. an `Error`.) -/
inductive JsVal
  | undef
  | null
  | bool (b : Bool)
  | num (n : Int)
  | str (s : String)
  | obj (id : Nat)
  deriving DecidableEq

/-- JS truthiness (`Boolean(v)`). -/
def truthy : JsVal → Bool
  | .undef => false
  | .null => false
  | .bool b => b
  | .num n => decide (n ≠ 0)
  | .str s => decide (s ≠ "")
  | .obj _ => true

/-- `middle.js` line 193: `var hasError = err === false || Boolean(err);`. -/
def hasError (err : JsVal) : Bool :=
  decide (err = JsVal.bool false) || truthy err

/-- `getProtohost` (`middle.js` lines 232-244).  `none` embeds JS
`undefined`.  In the last branch, when no `/` follows the `://` marker,
JS computes `url.substr(0, -1)`, which is the empty string. -/
def getProtohost (url : String) : Option String :=
  if url.length = 0 ∨ strTake url 1 = "/" then
    none
  else
    let pathLength := match jsIndexOf url "?" with
      | some searchIndex => searchIndex
      | none => url.length
    match jsIndexOf (strTake url pathLength) "://" with
    | none => none
    | some fqdnIndex =>
      match jsIndexOfFrom url '/' (3 + fqdnIndex) with
      | some i => some (strTake url i)
      | none => some ""

/-- `getProtohost(req.url) || ''` (`middle.js` line 110). -/
def protohostOf (url : String) : String :=
  (getProtohost url).getD ""

/-- Modelled from the spec: `parseUrl(req).pathname || '/'` (`middle.js`
line 147).  `parseurl` is an external dependency, not part of this
repository; the spec describes the value as "the request's path component
(excluding query string); default to `/` if empty".  We model it as the
part of the URL after its protohost and before any `?`. -/
def pathname (url : String) : String :=
  let ph := protohostOf url
  let p : String := ⟨(substrFrom url ph.length).data.takeWhile (fun c => c ≠ '?')⟩
  if p = "" then "/" else p

/-- The route-match test of `next` (`middle.js` lines 150-163): the
lower-cased path must start with the lower-cased route, and, when the path
is strictly longer, the character right after the matched prefix must be
`/` or `.` (otherwise the match is rejected, e.g. `/admin` against
`/administration`). -/
def routeMatch (path route : String) : Bool :=
  (strTake (jsToLower path) route.length = jsToLower route) &&
    !(decide (route.length < path.length) &&
      (match path.data.get? route.length with
       | some c => decide (c ≠ '/') && decide (c ≠ '.')
       | none => false))

/-- Result of the URL-trimming step. -/
structure Trimmed where
  url : String
  removed : String
  slashAdded : Bool
  deriving DecidableEq

/-- The mount-trimming step of `next` (`middle.js` lines 165-176): for a
non-root route, strip the route from the URL after the protohost, and
ensure a leading slash (recording `slashAdded`) when there is no protohost
and the result does not start with `/`. -/
def trimMount (protohost url route : String) : Trimmed :=
  if route.length ≠ 0 ∧ route ≠ "/" then
    let u := protohost ++ substrFrom url (protohost.length + route.length)
    if protohost = "" ∧ strTake u 1 ≠ "/" then
      ⟨"/" ++ u, route, true⟩
    else
      ⟨u, route, false⟩
  else
    ⟨url, "", false⟩

/-- The restore step at the top of `next` (`middle.js` lines 127-135):
drop a previously added synthetic leading slash, then splice a previously
removed mount segment back in after the protohost. -/
def restoreUrl (protohost url removed : String) (slashAdded : Bool) : String :=
  let u := if slashAdded then substrFrom url 1 else url
  if removed.length ≠ 0 then
    protohost ++ removed ++ substrFrom u protohost.length
  else
    u

/-- Behaviour of a handler when it is actually invoked: it may throw
synchronously, call the continuation `next` with an error value
(`JsVal.undef` embeds calling it with no argument), or return without
calling `next` at all. -/
inductive HBeh
  | thr (e : JsVal)
  | callNext (e : JsVal)
  | halt
  deriving DecidableEq

/-- A registered handler: its declared parameter arity (JS
`handle.length`) and its behaviour when invoked. -/
structure Handler where
  arity : Nat
  beh : HBeh
  deriving DecidableEq

/-- A stack entry (`middle.js` line 96: `{ route: path, handle: handle }`). -/
structure Layer where
  route : String
  handle : Handler
  deriving DecidableEq

/-- `use` (`middle.js` lines 71-99): default the path to `/` when no
string route is given (`route = none`), strip a trailing slash
(JS `path[path.length - 1] === '/'`, so the root `/` itself becomes the
empty string), and push `{route, handle}` onto the stack.  (The sub-app
wrapping of lines 82-88 only re-packages the handler and is not needed by
any claim; a `Handler` here stands for the stored callable.) -/
def use (stack : List Layer) (route : Option String) (h : Handler) : List Layer :=
  let path := match route with
    | some s => s
    | none => "/"
  let path := if path.data.getLast? = some '/' then (⟨path.data.dropLast⟩ : String) else path
  stack ++ [⟨path, h⟩]

/-- The mode-selection half of `call` (`middle.js` lines 190-204):
`some true` means the handler is invoked as an error handler
(`hasError && arity === 4`), `some false` as a request handler
(`!hasError && arity < 4`), `none` means it is not invoked at all. -/
def callInvoked (h : Handler) (err : JsVal) : Option Bool :=
  if hasError err = true ∧ h.arity = 4 then some true
  else if hasError err = false ∧ h.arity < 4 then some false
  else none

/-- The continuation half of `call` (`middle.js` lines 190-212): the value
passed to `next` afterwards.  When the handler is not invoked, `next`
receives the pending error unchanged; when it is invoked, a synchronous
throw is caught and replaces the error, a synchronous `next(e)` by the
handler continues with `e`, and a handler that returns without calling
`next` ends the walk (`none`). -/
def callNextErr (h : Handler) (err : JsVal) : Option JsVal :=
  match callInvoked h err with
  | none => some err
  | some _ =>
    match h.beh with
    | .thr e => some e
    | .callNext e => some e
    | .halt => none

/-- Observable events of one dispatch: a handler invocation (recording the
layer's route, the URL before trimming, the URL the handler observes, the
mode — `true` for error mode — and the pending error), or the deferred
invocation of the terminal collaborator (`defer(done, err)`,
`middle.js` line 142). -/
inductive Ev
  | invoke (route urlBefore urlSeen : String) (errMode : Bool) (err : JsVal)
  | term (err : JsVal)
  deriving DecidableEq

/-- `true` exactly on terminal-collaborator events. -/
def isTerm : Ev → Bool
  | .term _ => true
  | _ => false

/-- The chain walker `next` (`middle.js` lines 126-183), as the list of
observable events of the rest of the dispatch.  The state is the suffix of
the stack still to be walked, the current URL, and the `removed` /
`slashAdded` restore state; `protohost` is fixed for the whole dispatch
(line 110).  Reaching the end of the stack emits the (deferred) terminal
event with the pending error; a handler that never calls its continuation
ends the event list without a terminal event. -/
def next (ph : String) : List Layer → String → String → Bool → JsVal → List Ev
  | [], _url, _removed, _slashAdded, err => [Ev.term err]
  | layer :: rest, url, removed, slashAdded, err =>
    let url2 := restoreUrl ph url removed slashAdded
    if routeMatch (pathname url2) layer.route then
      let t := trimMount ph url2 layer.route
      let evs : List Ev := match callInvoked layer.handle err with
        | some m => [Ev.invoke layer.route url2 t.url m err]
        | none => []
      match callNextErr layer.handle err with
      | some e => evs ++ next ph rest t.url t.removed t.slashAdded e
      | none => evs
    else
      next ph rest url2 "" false err

/-- One full dispatch (`handle`, `middle.js` lines 108-183): the walk
starts at the whole stack with the request URL, no restore state and no
pending error, with the protohost computed once from the URL. -/
def handleDispatch (stack : List Layer) (url : String) : List Ev :=
  next (protohostOf url) stack url "" false JsVal.undef

/-- `middle.js` line 124: `req.originalUrl = req.originalUrl || req.url`.
The `originalUrl` field is `none` when not yet set; JS `||` takes the
right operand when the left is falsy (absent or the empty string). -/
def handleOriginalUrl (originalUrl : Option String) (url : String) : String :=
  match originalUrl with
  | some s => if s = "" then url else s
  | none => url

end Middle

namespace Middle

/-! ## String helper lemmas -/

theorem substrFrom_append (a b : String) : substrFrom (a ++ b) a.length = b := by
  apply String.ext
  simp only [substrFrom, String.data_append]
  exact List.drop_left a.data b.data

theorem substrFrom_zero (s : String) : substrFrom s 0 = s := rfl

theorem empty_append_str (s : String) : "" ++ s = s := rfl

theorem length_append_str (a b : String) : (a ++ b).length = a.length + b.length :=
  List.length_append a.data b.data

/-! ## Claim theorems -/

theorem restoreUrl_false (ph url removed : String) (h : removed.length ≠ 0) :
    restoreUrl ph url removed false = ph ++ removed ++ substrFrom url ph.length := by
  unfold restoreUrl
  simp [h]

theorem restoreUrl_true (ph url removed : String) (h : removed.length ≠ 0) :
    restoreUrl ph url removed true
      = ph ++ removed ++ substrFrom (substrFrom url 1) ph.length := by
  unfold restoreUrl
  simp [h]

/-- **C2**: for a non-root route `R`, trimming the mount strips `R` from
the URL after the protohost (synthesizing a leading slash when there is no
protohost), and the restore step at the following advance rebuilds exactly
`protohost ++ R ++ remainder`, so an absolute-form URL's scheme and
authority survive a strip-and-restore cycle. -/
theorem mount_strip_restore (ph R rest : String)
    (hR0 : R.length ≠ 0) (hR1 : R ≠ "/") :
    ((trimMount ph (ph ++ R ++ rest) R).url = ph ++ rest
        ∨ (ph = "" ∧ (trimMount ph (ph ++ R ++ rest) R).url = "/" ++ rest))
    ∧ (ph = "" → strTake (trimMount ph (ph ++ R ++ rest) R).url 1 = "/")
    ∧ restoreUrl ph (trimMount ph (ph ++ R ++ rest) R).url
        (trimMount ph (ph ++ R ++ rest) R).removed
        (trimMount ph (ph ++ R ++ rest) R).slashAdded = ph ++ R ++ rest := by
  have hstrip : substrFrom (ph ++ R ++ rest) (ph.length + R.length) = rest := by
    have h1 : (ph ++ R).length = ph.length + R.length := length_append_str ph R
    calc substrFrom (ph ++ R ++ rest) (ph.length + R.length)
        = substrFrom ((ph ++ R) ++ rest) ((ph ++ R).length) := by rw [h1]
      _ = rest := substrFrom_append (ph ++ R) rest
  unfold trimMount
  rw [if_pos ⟨hR0, hR1⟩, hstrip]
  by_cases hc : ph = "" ∧ strTake (ph ++ rest) 1 ≠ "/"
  · rw [if_pos hc]
    obtain ⟨hph, _⟩ := hc
    subst hph
    refine ⟨Or.inr ⟨rfl, by rw [empty_append_str]⟩, fun _ => rfl, ?_⟩
    rw [restoreUrl_true "" ("/" ++ ("" ++ rest)) R hR0]
    have hdrop : substrFrom ("/" ++ ("" ++ rest)) 1 = "" ++ rest := by
      have h1 : ("/" : String).length = 1 := rfl
      rw [← h1]
      exact substrFrom_append "/" ("" ++ rest)
    rw [hdrop]
    have h0 : ("" : String).length = 0 := rfl
    rw [h0, substrFrom_zero]
    simp only [empty_append_str]
  · rw [if_neg hc]
    refine ⟨Or.inl rfl, ?_, ?_⟩
    · intro hph
      by_contra hne
      exact hc ⟨hph, hne⟩
    · rw [restoreUrl_false ph (ph ++ rest) R hR0, substrFrom_append ph rest]

/-- **C2 witness**: the absolute-form URL `http://example.com/api/x`
round-trips through the mount-and-restore cycle for mount path `/api`. -/
theorem mount_strip_restore_witness :
    restoreUrl "http://example.com"
      (trimMount "http://example.com" ("http://example.com" ++ "/api" ++ "/x") "/api").url
      (trimMount "http://example.com" ("http://example.com" ++ "/api" ++ "/x") "/api").removed
      (trimMount "http://example.com" ("http://example.com" ++ "/api" ++ "/x") "/api").slashAdded
      = "http://example.com" ++ "/api" ++ "/x" :=
  (mount_strip_restore "http://example.com" "/api" "/x" (by decide) (by decide)).2.2

theorem hasError_iff (err : JsVal) :
    hasError err = true ↔ (err = JsVal.bool false ∨ truthy err = true) := by
  simp [hasError]

/-- **C3**: with a pending error, a matching handler is invoked (as an
error handler) iff its arity is exactly 4; with no pending error, iff its
arity is less than 4 (as a request handler); on arity mismatch the handler
is not invoked and the advance continues with the same pending error
unchanged. -/
theorem call_arity_dispatch (h : Handler) (err : JsVal) :
    (callInvoked h err = some true ↔ (hasError err = true ∧ h.arity = 4))
    ∧ (callInvoked h err = some false ↔ (hasError err = false ∧ h.arity < 4))
    ∧ (callInvoked h err = none → callNextErr h err = some err) := by
  refine ⟨?_, ?_, ?_⟩
  · unfold callInvoked
    split_ifs with h1 h2 <;> simp_all
  · unfold callInvoked
    split_ifs with h1 h2 <;> simp_all
  · intro h0
    unfold callNextErr
    rw [h0]

/-- **C3 witness**: a request handler of arity 4 with no pending error is
skipped, and the advance continues with the same (absent) error. -/
theorem call_arity_dispatch_witness :
    callNextErr ⟨4, HBeh.halt⟩ JsVal.undef = some JsVal.undef :=
  (call_arity_dispatch ⟨4, HBeh.halt⟩ JsVal.undef).2.2 (by decide)

/-- **C4 counterexample**: the pending-error test is
`err === false || Boolean(err)`, not `err !== undefined`: the falsy value
`0` (and likewise `null`) is not the absence marker `undefined`, yet with
it an arity-4 handler is not invoked in error mode — an arity-3 handler is
invoked in normal mode instead. -/
theorem pending_error_not_any_defined :
    JsVal.num 0 ≠ JsVal.undef
    ∧ callInvoked ⟨4, HBeh.halt⟩ (JsVal.num 0) = none
    ∧ callInvoked ⟨3, HBeh.halt⟩ (JsVal.num 0) = some false
    ∧ JsVal.null ≠ JsVal.undef
    ∧ callInvoked ⟨4, HBeh.halt⟩ JsVal.null = none := by
  decide

/-- **C4 amended**: the invocation proceeds in error mode exactly when the
err value is the literal `false` or is truthy; falsy values other than
`false` (`undefined`, `null`, `0`, the empty string) select normal mode. -/
theorem pending_error_is_false_or_truthy (h : Handler) (err : JsVal) :
    callInvoked h err = some true
      ↔ ((err = JsVal.bool false ∨ truthy err = true) ∧ h.arity = 4) := by
  rw [← hasError_iff]
  unfold callInvoked
  split_ifs with h1 h2 <;> simp_all

/-- **C5**: a synchronous throw during invocation is caught, replaces the
pending error, and the advance continues with it; in the concrete scenario
`[A (route "/", arity 3, throws), B (route "/x", arity 4)]` with a normal
request to `/x`, `A` is invoked in normal mode and `B` is then invoked in
error mode with the thrown error. -/
theorem throw_becomes_pending_error :
    (∀ (h : Handler) (err e : JsVal), h.beh = HBeh.thr e → callInvoked h err ≠ none →
        callNextErr h err = some e)
    ∧ handleDispatch
        (use (use [] (some "/") ⟨3, HBeh.thr (JsVal.obj 0)⟩) (some "/x") ⟨4, HBeh.halt⟩)
        "/x"
      = [Ev.invoke "" "/x" "/x" false JsVal.undef,
         Ev.invoke "/x" "/x" "/" true (JsVal.obj 0)] := by
  constructor
  · intro h err e hbeh hinv
    unfold callNextErr
    cases hcase : callInvoked h err with
    | none => exact absurd hcase hinv
    | some m => rw [hbeh]
  · decide

/-- **C5 witness**: a throwing arity-3 handler invoked with no pending
error hands the thrown value to the advance. -/
theorem throw_becomes_pending_error_witness :
    callNextErr ⟨3, HBeh.thr (JsVal.obj 7)⟩ JsVal.undef = some (JsVal.obj 7) :=
  throw_becomes_pending_error.1 ⟨3, HBeh.thr (JsVal.obj 7)⟩ JsVal.undef (JsVal.obj 7)
    rfl (by decide)

/-- **C7**: `use` defaults the mount path to `/` when no string path is
given, strips a trailing `/` (storing the root `/` as the empty string),
and appends the new `{route, handle}` entry at the end of the stack. -/
theorem use_normalizes_and_appends :
    (∀ (st : List Layer) (h : Handler), use st none h = st ++ [⟨"", h⟩])
    ∧ (∀ (st : List Layer) (h : Handler), use st (some "/") h = st ++ [⟨"", h⟩])
    ∧ (∀ (st : List Layer) (h : Handler) (p : String), 1 < p.length →
        p.data.getLast? = some '/' →
        use st (some p) h = st ++ [⟨(⟨p.data.dropLast⟩ : String), h⟩])
    ∧ (∀ (st : List Layer) (h : Handler) (p : String), p.data.getLast? ≠ some '/' →
        use st (some p) h = st ++ [⟨p, h⟩]) := by
  refine ⟨fun st h => rfl, fun st h => rfl, ?_, ?_⟩
  · intro st h p _ hlast
    show st ++ [⟨if p.data.getLast? = some '/' then (⟨p.data.dropLast⟩ : String) else p, h⟩]
      = st ++ [⟨(⟨p.data.dropLast⟩ : String), h⟩]
    rw [if_pos hlast]
  · intro st h p hlast
    show st ++ [⟨if p.data.getLast? = some '/' then (⟨p.data.dropLast⟩ : String) else p, h⟩]
      = st ++ [⟨p, h⟩]
    rw [if_neg hlast]

/-- **C7 witness**: `use` at `/admin/` stores route `/admin`; at `/admin`
it stores `/admin` unchanged. -/
theorem use_normalizes_and_appends_witness :
    use [] (some "/admin/") ⟨3, HBeh.halt⟩ = [⟨"/admin", ⟨3, HBeh.halt⟩⟩]
    ∧ use [] (some "/admin") ⟨3, HBeh.halt⟩ = [⟨"/admin", ⟨3, HBeh.halt⟩⟩] := by
  constructor
  · rw [use_normalizes_and_appends.2.2.1 [] ⟨3, HBeh.halt⟩ "/admin/" (by decide) (by decide)]
    decide
  · exact use_normalizes_and_appends.2.2.2 [] ⟨3, HBeh.halt⟩ "/admin" (by decide)

/-- **C9 counterexample**: `originalUrl` is guarded by JS truthiness, not
by "already set": a request whose `originalUrl` field is already set to
the (falsy) empty string is overwritten by `handle`. -/
theorem originalUrl_overwritten_when_empty :
    handleOriginalUrl (some "") "/x" = "/x" ∧ ("/x" : String) ≠ "" := by
  decide

/-- **C9 amended**: `handle` overwrites `originalUrl` only when it is
unset or set to the falsy empty string; once the outermost dispatch has
captured a nonempty URL, no nested dispatch's `handle` call changes it. -/
theorem originalUrl_stable_once_captured (u0 u1 : String) (h : u0 ≠ "") :
    handleOriginalUrl (some (handleOriginalUrl none u0)) u1
      = handleOriginalUrl none u0 := by
  simp [handleOriginalUrl, h]

/-- **C9 witness**: a captured nonempty URL survives a nested dispatch. -/
theorem originalUrl_stable_once_captured_witness :
    handleOriginalUrl (some (handleOriginalUrl none "/x")) "/y"
      = handleOriginalUrl none "/x" :=
  originalUrl_stable_once_captured "/x" "/y" (by decide)

/-- **C10**: when `originalUrl` is already set but falsy (the empty
string), `handle` overwrites it with the current URL; the set-at-most-once
guarantee holds exactly for truthy stored values. -/
theorem originalUrl_truthy_guard :
    (∀ url : String, handleOriginalUrl (some "") url = url)
    ∧ (∀ s url : String, s ≠ "" → handleOriginalUrl (some s) url = s) := by
  constructor
  · intro url
    simp [handleOriginalUrl]
  · intro s url hs
    simp [handleOriginalUrl, hs]

/-- **C10 witness**: an empty stored `originalUrl` is overwritten; a
nonempty one is kept. -/
theorem originalUrl_truthy_guard_witness :
    handleOriginalUrl (some "") "/a" = "/a"
    ∧ handleOriginalUrl (some "/keep") "/a" = "/keep" :=
  ⟨originalUrl_truthy_guard.1 "/a", originalUrl_truthy_guard.2 "/keep" "/a" (by decide)⟩

/-- **C1**: a layer's handler is invoked only if the request's path
component case-insensitively starts with the layer's route and, when the
path is strictly longer, the character after the matched prefix is `/` or
`.`; concretely, route `/admin` matches `/admin`, `/admin/`, `/admin/x`
and `/admin.json` but not `/administration`. -/
theorem handler_invoked_only_on_match :
    (∀ (ph : String) (st : List Layer) (url rm : String) (sa : Bool) (err : JsVal)
        (r ub us : String) (m : Bool) (e : JsVal),
        Ev.invoke r ub us m e ∈ next ph st url rm sa err →
        routeMatch (pathname ub) r = true)
    ∧ routeMatch "/admin" "/admin" = true
    ∧ routeMatch "/admin/" "/admin" = true
    ∧ routeMatch "/admin/x" "/admin" = true
    ∧ routeMatch "/admin.json" "/admin" = true
    ∧ routeMatch "/administration" "/admin" = false := by
  refine ⟨?_, by decide, by decide, by decide, by decide, by decide⟩
  intro ph st
  induction st with
  | nil =>
    intro url rm sa err r ub us m e hmem
    simp [next] at hmem
  | cons layer rest ih =>
    intro url rm sa err r ub us m e hmem
    simp only [next] at hmem
    split at hmem
    · rename_i hm
      split at hmem
      · rcases List.mem_append.mp hmem with h1 | h2
        · split at h1
          · rw [List.mem_singleton] at h1
            obtain ⟨hr, hub, _, _, _⟩ := Ev.invoke.inj h1
            subst hr
            subst hub
            exact hm
          · exact absurd h1 (List.not_mem_nil _)
        · exact ih _ _ _ _ _ _ _ _ _ h2
      · split at hmem
        · rw [List.mem_singleton] at hmem
          obtain ⟨hr, hub, _, _, _⟩ := Ev.invoke.inj hmem
          subst hr
          subst hub
          exact hm
        · exact absurd hmem (List.not_mem_nil _)
    · exact ih _ _ _ _ _ _ _ _ _ hmem

/-- **C1 witness**: the one invocation of a concrete dispatch satisfies
the match predicate. -/
theorem handler_invoked_only_on_match_witness :
    routeMatch (pathname "/x") "" = true :=
  handler_invoked_only_on_match.1 "" [⟨"", ⟨3, HBeh.halt⟩⟩] "/x" "" false JsVal.undef
    "" "/x" "/x" false JsVal.undef (by decide)

theorem callNextErr_eq_none (h : Handler) (err : JsVal)
    (hn : callNextErr h err = none) : h.beh = HBeh.halt := by
  unfold callNextErr at hn
  cases hc : callInvoked h err with
  | none => rw [hc] at hn; exact absurd hn (by simp)
  | some m =>
    rw [hc] at hn
    cases hb : h.beh <;> rw [hb] at hn <;> simp_all

/-- **C6**: the terminal collaborator is scheduled (via `defer`) at most
once per dispatch, always as the very last event, exactly once whenever no
handler abandons the chain, and — when the stack is exhausted — with
precisely the pending error current at that moment. -/
theorem terminal_deferred_once :
    (∀ (ph : String) (st : List Layer) (url rm : String) (sa : Bool) (err : JsVal),
        (next ph st url rm sa err).countP isTerm ≤ 1)
    ∧ (∀ (ph : String) (st : List Layer) (url rm : String) (sa : Bool) (err : JsVal),
        (∀ l ∈ st, l.handle.beh ≠ HBeh.halt) →
        (next ph st url rm sa err).countP isTerm = 1)
    ∧ (∀ (ph : String) (st : List Layer) (url rm : String) (sa : Bool) (err e : JsVal),
        Ev.term e ∈ next ph st url rm sa err →
        ∃ pre, next ph st url rm sa err = pre ++ [Ev.term e])
    ∧ (∀ (ph url rm : String) (sa : Bool) (err : JsVal),
        next ph [] url rm sa err = [Ev.term err]) := by
  refine ⟨?_, ?_, ?_, fun ph url rm sa err => rfl⟩
  · intro ph st
    induction st with
    | nil =>
      intro url rm sa err
      simp [next, isTerm]
    | cons layer rest ih =>
      intro url rm sa err
      simp only [next]
      split
      · split
        · rw [List.countP_append]
          split <;> simp [isTerm, ih]
        · split <;> simp [isTerm]
      · exact ih _ _ _ _
  · intro ph st
    induction st with
    | nil =>
      intro url rm sa err _
      simp [next, isTerm]
    | cons layer rest ih =>
      intro url rm sa err hnh
      have hrest : ∀ l ∈ rest, l.handle.beh ≠ HBeh.halt :=
        fun l hl => hnh l (List.mem_cons_of_mem layer hl)
      simp only [next]
      split
      · split
        · rw [List.countP_append]
          split <;> simp [isTerm, ih _ _ _ _ hrest]
        · rename_i hnone
          exact absurd (callNextErr_eq_none layer.handle err hnone)
            (hnh layer (List.mem_cons_self layer rest))
      · exact ih _ _ _ _ hrest
  · intro ph st
    induction st with
    | nil =>
      intro url rm sa err e hmem
      simp only [next] at hmem ⊢
      rw [List.mem_singleton] at hmem
      obtain rfl := (Ev.term.inj hmem.symm)
      exact ⟨[], rfl⟩
    | cons layer rest ih =>
      intro url rm sa err e hmem
      simp only [next] at hmem ⊢
      by_cases hm : routeMatch (pathname (restoreUrl ph url rm sa)) layer.route = true
      · rw [if_pos hm] at hmem ⊢
        cases hnx : callNextErr layer.handle err with
        | some e2 =>
          rw [hnx] at hmem
          rcases List.mem_append.mp hmem with h1 | h2
          · exfalso
            cases hinv : callInvoked layer.handle err with
            | some m => rw [hinv] at h1; simp at h1
            | none => rw [hinv] at h1; simp at h1
          · obtain ⟨pre, hpre⟩ := ih _ _ _ _ _ h2
            refine ⟨(match callInvoked layer.handle err with
              | some m => [Ev.invoke layer.route (restoreUrl ph url rm sa)
                  (trimMount ph (restoreUrl ph url rm sa) layer.route).url m err]
              | none => []) ++ pre, ?_⟩
            show (match callInvoked layer.handle err with
              | some m => [Ev.invoke layer.route (restoreUrl ph url rm sa)
                  (trimMount ph (restoreUrl ph url rm sa) layer.route).url m err]
              | none => [])
                ++ next ph rest (trimMount ph (restoreUrl ph url rm sa) layer.route).url
                  (trimMount ph (restoreUrl ph url rm sa) layer.route).removed
                  (trimMount ph (restoreUrl ph url rm sa) layer.route).slashAdded e2
              = _
            rw [hpre, List.append_assoc]
        | none =>
          rw [hnx] at hmem
          exfalso
          cases hinv : callInvoked layer.handle err with
          | some m => rw [hinv] at hmem; simp at hmem
          | none => rw [hinv] at hmem; simp at hmem
      · rw [if_neg hm] at hmem ⊢
        exact ih _ _ _ _ _ hmem

/-- **C6 witness**: a two-layer chain whose handlers both continue
schedules the terminal collaborator exactly once. -/
theorem terminal_deferred_once_witness :
    (next "" [⟨"", ⟨3, HBeh.callNext JsVal.undef⟩⟩, ⟨"/x", ⟨3, HBeh.callNext JsVal.undef⟩⟩]
        "/x" "" false JsVal.undef).countP isTerm = 1 :=
  terminal_deferred_once.2.1 ""
    [⟨"", ⟨3, HBeh.callNext JsVal.undef⟩⟩, ⟨"/x", ⟨3, HBeh.callNext JsVal.undef⟩⟩]
    "/x" "" false JsVal.undef (by decide)

/-! ## Lemmas about the JS `indexOf` model -/

theorem isPrefixOf_self_append (l t : List Char) : l.isPrefixOf (l ++ t) = true :=
  List.isPrefixOf_iff_prefix.mpr (List.prefix_append l t)

theorem idxOfList_head_notin {p : Char} {ps l1 l2 : List Char}
    (hp : p ∉ l1) (hpre : (p :: ps).isPrefixOf l2 = true) :
    idxOfList (p :: ps) (l1 ++ l2) = some l1.length := by
  induction l1 with
  | nil =>
    cases l2 with
    | nil => simp [List.isPrefixOf] at hpre
    | cons c r =>
      show idxOfList (p :: ps) (c :: r) = some 0
      unfold idxOfList
      rw [if_pos hpre]
  | cons a t ihl =>
    have hpa : p ≠ a := fun h => hp (h ▸ List.mem_cons_self a t)
    have hpt : p ∉ t := fun h => hp (List.mem_cons_of_mem a h)
    show idxOfList (p :: ps) (a :: (t ++ l2)) = some (t.length + 1)
    unfold idxOfList
    rw [if_neg ?hneg]
    · rw [ihl hpt]
      rfl
    case hneg =>
      intro hcontr
      simp [List.isPrefixOf] at hcontr
      exact hpa hcontr.1

theorem idxOfList_singleton_none {c : Char} {l : List Char} (h : c ∉ l) :
    idxOfList [c] l = none := by
  induction l with
  | nil => rfl
  | cons a t ihl =>
    have hca : ¬ ([c].isPrefixOf (a :: t) = true) := by
      intro hcontr
      simp [List.isPrefixOf] at hcontr
      exact h (hcontr ▸ List.mem_cons_self a t)
    unfold idxOfList
    rw [if_neg hca, ihl (fun hh => h (List.mem_cons_of_mem a hh))]
    rfl

theorem getProtohost_eq (url : String)
    (hg : ¬(url.length = 0 ∨ strTake url 1 = "/")) :
    getProtohost url
      = match jsIndexOf (strTake url (match jsIndexOf url "?" with
          | some searchIndex => searchIndex
          | none => url.length)) "://" with
        | none => none
        | some fqdnIndex =>
          match jsIndexOfFrom url '/' (3 + fqdnIndex) with
          | some i => some (strTake url i)
          | none => some "" := by
  unfold getProtohost
  rw [if_neg hg]

/-- **C8 counterexample**: in `a/b://c/d` the first `/` (index 1) comes
before the first `://` (index 3), so by the claim `getProtohost` should
return undefined; the code instead finds `://` in the pre-query part and
returns the substring `a/b://c`. -/
theorem getProtohost_slash_before_marker :
    jsIndexOfFrom "a/b://c/d" '/' 0 = some 1
    ∧ jsIndexOf "a/b://c/d" "://" = some 3
    ∧ getProtohost "a/b://c/d" = some "a/b://c" := by
  decide

/-- **C8 amended**: `getProtohost` returns the scheme+authority substring
(up to but not including the first `/` after the `://` marker) for any URL
not starting with `/` whose pre-query-marker part contains `://` — whether
or not a `/` occurs before the marker; it returns undefined for relative
or empty URLs and URLs lacking `://` before the query marker, and the
empty string when no `/` follows the marker at all. -/
theorem getProtohost_scheme_authority :
    (∀ scheme host rest : String,
      scheme.data ≠ [] →
      (∀ c ∈ scheme.data, c ≠ '/' ∧ c ≠ '?' ∧ c ≠ ':') →
      (∀ c ∈ host.data, c ≠ '/' ∧ c ≠ '?') →
      (∀ c ∈ rest.data, c ≠ '?') →
      getProtohost (scheme ++ "://" ++ host ++ "/" ++ rest)
        = some (scheme ++ "://" ++ host))
    ∧ (∀ url : String, strTake url 1 = "/" → getProtohost url = none)
    ∧ getProtohost "" = none
    ∧ getProtohost "http://example.com/path?q=1" = some "http://example.com"
    ∧ getProtohost "http://example.com" = some ""
    ∧ getProtohost "no-marker/path" = none := by
  refine ⟨?_, ?_, by decide, by decide, by decide, by decide⟩
  · intro scheme host rest hs hschar hhchar hrchar
    have hdata : (scheme ++ "://" ++ host ++ "/" ++ rest).data
        = scheme.data ++ ([':', '/', '/'] ++ (host.data ++ '/' :: rest.data)) := by
      rw [String.data_append, String.data_append, String.data_append, String.data_append]
      rw [show ("://" : String).data = [':', '/', '/'] from rfl,
        show ("/" : String).data = ['/'] from rfl]
      simp [List.append_assoc]
    have hq : jsIndexOf (scheme ++ "://" ++ host ++ "/" ++ rest) "?" = none := by
      unfold jsIndexOf
      rw [show ("?" : String).data = ['?'] from rfl, hdata]
      apply idxOfList_singleton_none
      intro hin
      rcases List.mem_append.mp hin with h | h
      · exact (hschar _ h).2.1 rfl
      rcases List.mem_append.mp h with h | h
      · exact absurd h (by decide)
      rcases List.mem_append.mp h with h | h
      · exact (hhchar _ h).2 rfl
      rcases List.mem_cons.mp h with h | h
      · exact absurd h (by decide)
      · exact (hrchar _ h) rfl
    have hguard : ¬((scheme ++ "://" ++ host ++ "/" ++ rest).length = 0
        ∨ strTake (scheme ++ "://" ++ host ++ "/" ++ rest) 1 = "/") := by
      obtain ⟨c, cs, hsc⟩ : ∃ c cs, scheme.data = c :: cs := by
        cases hsd : scheme.data with
        | nil => exact absurd hsd hs
        | cons c cs => exact ⟨c, cs, rfl⟩
      have hcslash : c ≠ '/' := (hschar c (by rw [hsc]; exact List.mem_cons_self c cs)).1
      rintro (h0 | h1)
      · rw [show (scheme ++ "://" ++ host ++ "/" ++ rest).length
            = (scheme ++ "://" ++ host ++ "/" ++ rest).data.length from rfl, hdata, hsc] at h0
        simp at h0
      · have h2 : (scheme ++ "://" ++ host ++ "/" ++ rest).data.take 1 = ['/'] :=
          congrArg String.data h1
        rw [hdata, hsc] at h2
        simp at h2
        exact hcslash h2
    have hmark : jsIndexOf (strTake (scheme ++ "://" ++ host ++ "/" ++ rest)
        ((scheme ++ "://" ++ host ++ "/" ++ rest).length)) "://" = some scheme.length := by
      have htl : strTake (scheme ++ "://" ++ host ++ "/" ++ rest)
          ((scheme ++ "://" ++ host ++ "/" ++ rest).length)
          = scheme ++ "://" ++ host ++ "/" ++ rest :=
        String.ext (List.take_length _)
      rw [htl]
      unfold jsIndexOf
      rw [show ("://" : String).data = ':' :: ['/', '/'] from rfl, hdata]
      exact idxOfList_head_notin (fun h => (hschar _ h).2.2 rfl)
        (isPrefixOf_self_append (':' :: ['/', '/']) (host.data ++ '/' :: rest.data))
    have hslash : jsIndexOfFrom (scheme ++ "://" ++ host ++ "/" ++ rest) '/'
        (3 + scheme.length) = some (host.length + (3 + scheme.length)) := by
      unfold jsIndexOfFrom
      have hdrop : (scheme ++ "://" ++ host ++ "/" ++ rest).data.drop (3 + scheme.length)
          = host.data ++ '/' :: rest.data := by
        rw [hdata, ← List.append_assoc]
        have hl : 3 + scheme.length = (scheme.data ++ [':', '/', '/']).length := by
          show 3 + scheme.data.length = (scheme.data ++ [':', '/', '/']).length
          simp [List.length_append]
          omega
        rw [hl, List.drop_left]
      rw [hdrop]
      have hidx : idxOfList ['/'] (host.data ++ '/' :: rest.data) = some host.data.length :=
        idxOfList_head_notin (fun h => (hhchar _ h).1 rfl)
          (isPrefixOf_self_append ['/'] rest.data)
      rw [hidx]
      rfl
    have hfin : strTake (scheme ++ "://" ++ host ++ "/" ++ rest)
        (host.length + (3 + scheme.length)) = scheme ++ "://" ++ host := by
      apply String.ext
      show (scheme ++ "://" ++ host ++ "/" ++ rest).data.take (host.length + (3 + scheme.length))
        = (scheme ++ "://" ++ host).data
      rw [hdata, ← List.append_assoc]
      have hn : host.length + (3 + scheme.length)
          = (scheme.data ++ [':', '/', '/']).length + host.data.length := by
        show host.data.length + (3 + scheme.data.length)
          = (scheme.data ++ [':', '/', '/']).length + host.data.length
        simp [List.length_append]
        omega
      rw [hn, List.take_append, List.take_left]
      rw [String.data_append, String.data_append]
    rw [getProtohost_eq (scheme ++ "://" ++ host ++ "/" ++ rest) hguard]
    simp only [hq]
    rw [hmark]
    simp only []
    rw [hslash]
    simp only []
    rw [hfin]
  · intro url h1
    unfold getProtohost
    rw [if_pos (Or.inr h1)]

/-- **C8 witness**: a concrete well-formed absolute URL through the
compositional clause. -/
theorem getProtohost_scheme_authority_witness :
    getProtohost ("http" ++ "://" ++ "example.com" ++ "/" ++ "x")
      = some ("http" ++ "://" ++ "example.com") :=
  getProtohost_scheme_authority.1 "http" "example.com" "x"
    (by decide) (by decide) (by decide) (by decide)
